import Mathlib

/-!
Formal model of the fluxapay HD wallet core
(`src/fluxapay_backend/src/services/HDWalletService.ts` and the
`ed25519-hd-key` derivation routine it calls, plus the AWS KMS
envelope codec in `src/fluxapay_backend/src/services/kms/AWSKMSProvider.ts`).

Cryptographic primitives (SHA-256, SHA-512, HMAC-SHA512, AES-256-GCM,
Stellar key encoding) are abstracted as fields of a `Crypto` record;
theorems that depend on their behaviour take explicit soundness
hypotheses, and a computable `toyCrypto` instance discharges those
hypotheses on concrete witnesses.  Everything else — path rendering and
validation, hardened-index arithmetic, the hex/colon blob format, the
JSON payload shape, and the Prisma-backed index counters — is modelled
directly from the source.
-/

set_option maxRecDepth 16384

namespace Fluxa

/-- Abstract cryptographic primitives used by the service.
`gcmEnc key iv plaintext = (ciphertextBytes, tagBytes)`;
`gcmDec key iv tag ciphertext` returns the plaintext on tag success. -/
structure Crypto where
  sha256s : String → List Nat
  sha512s : String → List Nat
  hmacSha512 : List Nat → List Nat → List Nat
  gcmEnc : List Nat → List Nat → String → List Nat × List Nat
  gcmDec : List Nat → List Nat → List Nat → List Nat → Option String
  pubFromSeed : List Nat → String
  secFromSeed : List Nat → String

instance {ε α : Type} [DecidableEq ε] [DecidableEq α] :
    DecidableEq (Except ε α) := fun x y =>
  match x, y with
  | Except.ok a, Except.ok b =>
    if h : a = b then isTrue (by rw [h])
    else isFalse (by intro hc; cases hc; exact h rfl)
  | Except.error a, Except.error b =>
    if h : a = b then isTrue (by rw [h])
    else isFalse (by intro hc; cases hc; exact h rfl)
  | Except.ok _, Except.error _ => isFalse (by intro hc; exact Except.noConfusion hc)
  | Except.error _, Except.ok _ => isFalse (by intro hc; exact Except.noConfusion hc)

/-- UTF-8 bytes of a (Latin-1/ASCII) string, as `Buffer.from(s)` would give. -/
def strBytes (s : String) : List Nat := s.data.map Char.toNat

/-- All characters of the string are Latin-1 (single code unit byte value). -/
def latin1 (s : String) : Bool := s.data.all (fun ch => ch.toNat < 256)

/-- The apostrophe character used as the hardened marker in BIP44 paths. -/
def hq : Char := Char.ofNat 39

/-- Decimal digit character, `48 + n` for `n < 10`. -/
def digitChar (n : Nat) : Char := Char.ofNat (48 + n)

/-- Decimal-digit test on a character (ASCII 48..57). -/
def isDig (ch : Char) : Bool := decide (48 ≤ ch.toNat) && decide (ch.toNat ≤ 57)

/-- Fuel-driven digit rendering (structural, so it evaluates by kernel
reduction); `fuel ≥ n` suffices for full precision. -/
def natDigitsF : Nat → Nat → List Char
  | 0, n => [digitChar n]
  | fuel + 1, n =>
    if n < 10 then [digitChar n]
    else natDigitsF fuel (n / 10) ++ [digitChar (n % 10)]

/-- Big-endian decimal digits of a natural number, as JS number-to-string. -/
def natDigits (n : Nat) : List Char := natDigitsF n n

/-- JS rendering of an integer (decimal, minus sign for negatives). -/
def intChars (m : Int) : List Char :=
  if m < 0 then Char.ofNat 45 :: natDigits m.natAbs else natDigits m.natAbs

/-- Fold a digit list back to the number it denotes. -/
def digitsVal (l : List Char) : Nat :=
  l.foldl (fun a ch => a * 10 + (ch.toNat - 48)) 0

/-- Lowercase hex digit for a value below 16 (as Node `Buffer.toString("hex")`). -/
def hexDigit (k : Nat) : Char :=
  if k < 10 then Char.ofNat (48 + k) else Char.ofNat (87 + k)

/-- Value of a hex digit character (either case), `none` otherwise. -/
def hexVal (ch : Char) : Option Nat :=
  if 48 ≤ ch.toNat ∧ ch.toNat ≤ 57 then some (ch.toNat - 48)
  else if 97 ≤ ch.toNat ∧ ch.toNat ≤ 102 then some (ch.toNat - 87)
  else if 65 ≤ ch.toNat ∧ ch.toNat ≤ 70 then some (ch.toNat - 55)
  else none

/-- Lowercase hex rendering of a byte list. -/
def hexOf : List Nat → List Char
  | [] => []
  | b :: bs => hexDigit (b / 16) :: hexDigit (b % 16) :: hexOf bs

/-- Node `Buffer.from(str, "hex")`: consume valid hex pairs, stop at the
first invalid pair or dangling digit. -/
def fromHexL : List Char → List Nat
  | a :: b :: rest =>
    match hexVal a, hexVal b with
    | some x, some y => (x * 16 + y) :: fromHexL rest
    | _, _ => []
  | _ => []

/-- JS `String.prototype.split` with a single-character separator. -/
def splitOnChar (sep : Char) : List Char → List (List Char)
  | [] => [[]]
  | c :: cs =>
    match splitOnChar sep cs with
    | [] => [[]]
    | g :: gs => if c = sep then [] :: g :: gs else (c :: g) :: gs

/-- Strip an expected literal from the front of a character list. -/
def dropLit : List Char → List Char → Option (List Char)
  | [], l => some l
  | _, [] => none
  | c :: cs, x :: xs => if c = x then dropLit cs xs else none

/-- Parse a leading run of decimal digits (canonical JSON number body). -/
def parseNatChars (l : List Char) : Option (Nat × List Char) :=
  let ds := l.takeWhile isDig
  if ds.isEmpty then none else some (digitsVal ds, l.dropWhile isDig)

/-- Parse an optional minus sign followed by digits. -/
def parseIntChars (l : List Char) : Option (Int × List Char) :=
  if l.head? = some (Char.ofNat 45) then
    (parseNatChars l.tail).map (fun nr => (-(nr.1 : Int), nr.2))
  else
    (parseNatChars l).map (fun nr => ((nr.1 : Int), nr.2))

-- ── JSON payload of the Index Codec ────────────────────────────────────────

/-- Leading characters of `JSON.stringify({merchantIndex, paymentIndex})`. -/
def jsonKeyM : List Char := ("\x7b\"merchantIndex\":").data

/-- Characters between the two numbers in the serialized payload. -/
def jsonKeyP : List Char := ',' :: ("\"paymentIndex\":").data

/-- Closing brace of the payload. -/
def braceClose : Char := Char.ofNat 125

/-- `JSON.stringify({ merchantIndex: m, paymentIndex: p })`. -/
def jsonStr (m p : Int) : String :=
  String.mk (jsonKeyM ++ intChars m ++ jsonKeyP ++ intChars p ++ [braceClose])

/-- Parse of the canonical payload shape back into the two indices
(the restriction of `JSON.parse` to the shape `encryptKeyData` emits). -/
def jsonParsePair (s : String) : Option (Int × Int) :=
  match dropLit jsonKeyM s.data with
  | none => none
  | some r1 =>
    match parseIntChars r1 with
    | none => none
    | some (m, r2) =>
      match dropLit jsonKeyP r2 with
      | none => none
      | some r3 =>
        match parseIntChars r3 with
        | none => none
        | some (p, r4) => if r4 = [braceClose] then some (m, p) else none

-- ── BIP44 path rendering and the ed25519-hd-key derivation routine ─────────

/-- Error outcomes of the derivation routine: the library's
`Invalid derivation path` throw, and the `RangeError` thrown by
`Buffer.writeUInt32BE` when a hardened index exceeds `0xFFFFFFFF`. -/
inductive DerivErr
  | invalidPath
  | rangeOut
deriving DecidableEq

/-- The `44'` path segment. -/
def seg44 : List Char := ['4', '4', hq]

/-- The `148'` path segment (Stellar coin type). -/
def seg148 : List Char := ['1', '4', '8', hq]

/-- Characters of the template literal
`` m/44'/148'/${merchantIndex}'/${paymentIndex}' ``. -/
def renderPath (mi pi : Int) : String :=
  String.mk (['m'] ++ '/' :: seg44 ++ '/' :: seg148
    ++ '/' :: (intChars mi ++ [hq]) ++ '/' :: (intChars pi ++ [hq]))

/-- One segment of the library's path regex `(\/[0-9]+')+`:
digits followed by a single hardened marker. -/
def segOk (l : List Char) : Bool :=
  match l.reverse with
  | [] => false
  | q :: rest => decide (q = hq) && !rest.isEmpty && rest.all isDig

/-- The ed25519-hd-key `isValidPath` check: regex `^m(\/[0-9]+')+$`
(each numeric segment parses, which digits always do). -/
def isValidPath (s : String) : Bool :=
  match splitOnChar '/' s.data with
  | [] => false
  | h :: segs => decide (h = ['m']) && !segs.isEmpty && segs.all segOk

/-- `parseInt` of a segment after `replaceDerive` strips the marker. -/
def parseSeg (l : List Char) : Nat := digitsVal l.dropLast

/-- Private key and chain code pair threaded through child derivations. -/
structure KeyCC where
  key : List Nat
  chainCode : List Nat
deriving DecidableEq

/-- Big-endian 4-byte encoding written by `Buffer.writeUInt32BE`. -/
def be32 (n : Nat) : List Nat :=
  [n / 16777216 % 256, n / 65536 % 256, n / 256 % 256, n % 256]

/-- `getMasterKeyFromSeed`: HMAC-SHA512 keyed by `"ed25519 seed"` over the
hex-decoded seed; left half is the key, right half the chain code. -/
def getMasterKeyFromSeed (c : Crypto) (seedHex : String) : KeyCC :=
  let I := c.hmacSha512 (strBytes ("ed25519 seed")) (fromHexL seedHex.data)
  ⟨I.take 32, I.drop 32⟩

/-- `CKDPriv`: one hardened child-derivation step. `writeUInt32BE` throws
a `RangeError` exactly when `idx = seg + 0x80000000` exceeds `0xFFFFFFFF`,
i.e. exactly when `seg > 0x7FFFFFFF`, which is the guard used here. -/
def ckdPriv (c : Crypto) (kc : KeyCC) (seg : Nat) : Except DerivErr KeyCC :=
  let idx := seg + 2147483648
  if 2147483647 < seg then Except.error DerivErr.rangeOut
  else
    let I := c.hmacSha512 kc.chainCode (0 :: (kc.key ++ be32 idx))
    Except.ok ⟨I.take 32, I.drop 32⟩

/-- The `segments.reduce(...)` chain, with exceptions propagating. -/
def foldCKD (c : Crypto) : List Nat → KeyCC → Except DerivErr KeyCC
  | [], kc => Except.ok kc
  | s :: rest, kc => (ckdPriv c kc s).bind (foldCKD c rest)

/-- ed25519-hd-key `derivePath`: validate the path syntax, then fold the
hardened child derivation over the parsed segments. -/
def derivePath (c : Crypto) (path : String) (seedHex : String) : Except DerivErr KeyCC :=
  if isValidPath path then
    match splitOnChar '/' path.data with
    | [] => Except.error DerivErr.invalidPath
    | _ :: segs => foldCKD c (segs.map parseSeg) (getMasterKeyFromSeed c seedHex)
  else Except.error DerivErr.invalidPath

-- ── Service state, seed handling, and the wallet operations ────────────────

/-- JS truthiness of the nullable `this.masterSeed` field. -/
def getMasterSeedOp (ps : String) (cache : Option String) : String × Option String :=
  match cache with
  | some s => if s.isEmpty then (ps, some ps) else (s, some s)
  | none => (ps, some ps)

/-- The `/^[0-9a-fA-F]{64}$/` test of `getSeedBuffer`. -/
def isHex64 (s : String) : Bool :=
  decide (s.data.length = 64) && s.data.all (fun ch => (hexVal ch).isSome)

/-- Seed expansion on a resolved master-seed string: 64-char hex decodes to
32 bytes duplicated, anything else is SHA-512 hashed. -/
def seedBufOf (c : Crypto) (ms : String) : List Nat :=
  if isHex64 ms then fromHexL ms.data ++ fromHexL ms.data else c.sha512s ms

/-- `getSeedBuffer`: fetch/cache the master seed, then expand it. -/
def getSeedBuffer (c : Crypto) (ps : String) (cache : Option String) :
    List Nat × Option String :=
  let r := getMasterSeedOp ps cache
  (seedBufOf c r.1, r.2)

/-- `deriveKeypairFromPath(merchantIndex, paymentIndex)`:
render the path, expand the seed, run `derivePath`, build the keypair. -/
def deriveKeypairFromPath (c : Crypto) (ps : String) (cache : Option String)
    (mi pi : Int) : Except DerivErr (String × String × String) × Option String :=
  let path := renderPath mi pi
  let sb := getSeedBuffer c ps cache
  match derivePath c path (String.mk (hexOf sb.1)) with
  | Except.ok kc =>
    (Except.ok (c.pubFromSeed kc.key, c.secFromSeed kc.key, path), sb.2)
  | Except.error e => (Except.error e, sb.2)

/-- `regenerateKeypairFromPath(derivationPath)`: expand the seed and run
`derivePath` directly on the given string (no further validation). -/
def regenerateKeypairFromPath (c : Crypto) (ps : String) (cache : Option String)
    (path : String) : Except DerivErr (String × String) × Option String :=
  let sb := getSeedBuffer c ps cache
  match derivePath c path (String.mk (hexOf sb.1)) with
  | Except.ok kc => (Except.ok (c.pubFromSeed kc.key, c.secFromSeed kc.key), sb.2)
  | Except.error e => (Except.error e, sb.2)

/-- `regenerateKeypair` restricted to its numeric-indices branch. -/
def regenerateKeypairNum (c : Crypto) (ps : String) (cache : Option String)
    (mi pi : Int) : Except DerivErr (String × String) × Option String :=
  let r := deriveKeypairFromPath c ps cache mi pi
  match r.1 with
  | Except.ok ks => (Except.ok (ks.1, ks.2.1), r.2)
  | Except.error e => (Except.error e, r.2)

/-- `verifyAddress(merchantIndex, paymentIndex, publicKey)`. -/
def verifyAddress (c : Crypto) (ps : String) (cache : Option String)
    (mi pi : Int) (publicKey : String) : Except DerivErr Bool × Option String :=
  let r := deriveKeypairFromPath c ps cache mi pi
  match r.1 with
  | Except.ok ks => (Except.ok (decide (ks.1 = publicKey)), r.2)
  | Except.error e => (Except.error e, r.2)

-- ── The Prisma-backed index store ──────────────────────────────────────────

/-- One `merchantHDIndex` row. -/
structure MerchRec where
  merchant_index : Nat
  payment_counter : Nat
deriving DecidableEq

/-- The two tables the allocator touches: the singleton `hDIndexCounter`
row (absent until first upsert) and the `merchantHDIndex` rows. -/
structure DBState where
  globalCounter : Option Nat
  merchants : String → Option MerchRec

/-- Value of the counter row after the `upsert` that creates it at 0 when
absent and leaves it unchanged otherwise. -/
def gcVal (s : DBState) : Nat :=
  match s.globalCounter with
  | none => 0
  | some g => g

/-- `getMerchantIndex`, one serialized transaction: return the existing
mapping, or upsert the counter row, fetch-and-increment it, and create
the merchant mapping with the pre-increment value. -/
def getMerchantIndex (s : DBState) (mid : String) : Nat × DBState :=
  match s.merchants mid with
  | some r => (r.merchant_index, s)
  | none =>
    ((gcVal s + 1) - 1,
      { globalCounter := some (gcVal s + 1),
        merchants := fun k =>
          if k = mid then some ⟨(gcVal s + 1) - 1, 0⟩ else s.merchants k })

/-- `getNextPaymentIndex`: ensure the mapping exists, atomically increment
`payment_counter`, and return the updated value minus one. -/
def getNextPaymentIndex (s : DBState) (mid : String) : Nat × DBState :=
  let s1 := (getMerchantIndex s mid).2
  match s1.merchants mid with
  | some r =>
    ((r.payment_counter + 1) - 1,
      { s1 with merchants := fun k =>
          if k = mid then some ⟨r.merchant_index, r.payment_counter + 1⟩
          else s1.merchants k })
  | none => (0, s1)

/-- Results of `n` successive `getNextPaymentIndex` calls for one merchant. -/
def payIndexSeq (s : DBState) (mid : String) : Nat → List Nat
  | 0 => []
  | n + 1 =>
    let r := getNextPaymentIndex s mid
    r.1 :: payIndexSeq r.2 mid n

/-- The index-touching operations a trace can interleave. -/
inductive WOp
  | merch (mid : String)
  | pay (mid : String)

/-- Apply one operation to the store. -/
def applyOp (s : DBState) : WOp → DBState
  | WOp.merch mid => (getMerchantIndex s mid).2
  | WOp.pay mid => (getNextPaymentIndex s mid).2

/-- Run a trace of operations. -/
def runOps (s : DBState) : List WOp → DBState
  | [] => s
  | op :: rest => runOps (applyOp s op) rest

/-- Store with no counter row and no merchant mappings. -/
def dbInit : DBState := ⟨none, fun _ => none⟩

/-- The merchant index assigned to `mid`, if any. -/
def assignedIx (s : DBState) (mid : String) : Option Nat :=
  (s.merchants mid).map (fun r => r.merchant_index)

-- ── Orchestrator ───────────────────────────────────────────────────────────

/-- Full service state: the cached master seed and the backing store. -/
structure SvcState where
  masterSeed : Option String
  db : DBState

/-- `DerivedAddress` as returned by `derivePaymentAddress`. -/
structure DerivedAddress where
  publicKey : String
  merchantIndex : Nat
  paymentIndex : Nat
  derivationPath : String
deriving DecidableEq

/-- `derivePaymentAddress(merchantId, paymentId)`: allocate both indices,
derive the keypair, return the public key with the derivation metadata
(the `paymentId` argument is never read by the implementation). -/
def derivePaymentAddress (c : Crypto) (ps : String) (st : SvcState)
    (mid _pid : String) : Except DerivErr (DerivedAddress × SvcState) :=
  let m := getMerchantIndex st.db mid
  let p := getNextPaymentIndex m.2 mid
  match deriveKeypairFromPath c ps st.masterSeed (Int.ofNat m.1) (Int.ofNat p.1) with
  | (Except.ok ks, cache2) =>
    Except.ok (⟨ks.1, m.1, p.1, ks.2.2⟩, ⟨cache2, p.2⟩)
  | (Except.error e, _) => Except.error e

-- ── Index Codec ────────────────────────────────────────────────────────────

/-- Failure modes of the codec: the explicit field-count check, an
authentication failure in the cipher, and a `JSON.parse` failure. -/
inductive KeyDataErr
  | malformedBlob
  | decryptionFailed
  | jsonErr
deriving DecidableEq

/-- `this.masterSeed || "default-hd-key"` (JS truthiness on the cache). -/
def jsTruthySeed (cache : Option String) : String :=
  match cache with
  | some s => if s.isEmpty then "default-hd-key" else s
  | none => "default-hd-key"

/-- AES key of the local fallback: SHA-256 of `seed + ":hd-key-data"`. -/
def localKey (c : Crypto) (cache : Option String) : List Nat :=
  c.sha256s (jsTruthySeed cache ++ ":hd-key-data")

/-- `_localEncrypt`: AES-256-GCM under the derived key with the given IV,
rendered as `ivHex:tagHex:ctHex`. -/
def localEncrypt (c : Crypto) (cache : Option String) (iv : List Nat)
    (pt : String) : String :=
  let key := localKey c cache
  let ct := c.gcmEnc key iv pt
  String.mk (hexOf iv ++ ':' :: (hexOf ct.2 ++ ':' :: hexOf ct.1))

/-- `_localDecrypt`: split on `:`, require exactly three fields, hex-decode
each, and AES-256-GCM decrypt with tag verification. -/
def localDecrypt (c : Crypto) (cache : Option String) (blob : String) :
    Except KeyDataErr String :=
  match splitOnChar ':' blob.data with
  | [ivH, tagH, ctH] =>
    match c.gcmDec (localKey c cache) (fromHexL ivH) (fromHexL tagH) (fromHexL ctH) with
    | some pt => Except.ok pt
    | none => Except.error KeyDataErr.decryptionFailed
  | _ => Except.error KeyDataErr.malformedBlob

/-- `AWSKMSProvider.encrypt`: envelope encryption — wrap a fresh data key,
AES-256-GCM encrypt locally, join `edk|ivHex|tagHex|ctHex`. -/
def awsEncrypt (c : Crypto) (wrap : List Nat → String) (dataKey : List Nat)
    (iv : List Nat) (data : String) : String :=
  let ct := c.gcmEnc dataKey iv data
  String.mk ((wrap dataKey).data
    ++ '|' :: (hexOf iv ++ '|' :: (hexOf ct.2 ++ '|' :: hexOf ct.1)))

/-- `AWSKMSProvider.decrypt`: destructure the first four `|`-fields, unwrap
the data key, decrypt; every failure surfaces as the provider error. -/
def awsDecrypt (c : Crypto) (unwrap : String → Option (List Nat))
    (blob : String) : Except KeyDataErr String :=
  match splitOnChar '|' blob.data with
  | edk :: ivH :: tagH :: ctH :: _ =>
    match unwrap (String.mk edk) with
    | some dk =>
      match c.gcmDec dk (fromHexL ivH) (fromHexL tagH) (fromHexL ctH) with
      | some pt => Except.ok pt
      | none => Except.error KeyDataErr.decryptionFailed
    | none => Except.error KeyDataErr.decryptionFailed
  | _ => Except.error KeyDataErr.decryptionFailed

/-- Whether `kmsProvider.encrypt`/`decrypt` capabilities are present
(the AWS envelope provider) or absent (local AES-GCM fallback). -/
inductive EncBackend
  | provider (wrap : List Nat → String) (unwrap : String → Option (List Nat))
      (dataKey : List Nat)
  | localOnly

/-- `encryptKeyData(merchantIndex, paymentIndex)`: serialize the pair and
encrypt via the provider capability when present, else locally. -/
def encryptKeyData (c : Crypto) (cache : Option String) (b : EncBackend)
    (iv : List Nat) (m p : Int) : String :=
  match b with
  | EncBackend.provider wrap _ dk => awsEncrypt c wrap dk iv (jsonStr m p)
  | EncBackend.localOnly => localEncrypt c cache iv (jsonStr m p)

/-- `decryptKeyData(encrypted)`: decrypt via the matching capability and
`JSON.parse` the payload. -/
def decryptKeyData (c : Crypto) (cache : Option String) (b : EncBackend)
    (blob : String) : Except KeyDataErr (Int × Int) :=
  let payload := match b with
    | EncBackend.provider _ unwrap _ => awsDecrypt c unwrap blob
    | EncBackend.localOnly => localDecrypt c cache blob
  match payload with
  | Except.ok s =>
    match jsonParsePair s with
    | some mp => Except.ok mp
    | none => Except.error KeyDataErr.jsonErr
  | Except.error e => Except.error e

-- ── Cipher idealization properties ─────────────────────────────────────────

/-- The cipher decrypts what it encrypts (functional soundness of
AES-256-GCM), for Latin-1 plaintexts. -/
def GCMCorrect (c : Crypto) : Prop :=
  ∀ key iv pt, latin1 pt = true →
    c.gcmDec key iv (c.gcmEnc key iv pt).2 (c.gcmEnc key iv pt).1 = some pt

/-- Authenticated-cipher idealization: a successful decryption exhibits its
input as the genuine encryption of the returned plaintext. -/
def GCMAuth (c : Crypto) : Prop :=
  ∀ key iv tag ct pt, c.gcmDec key iv tag ct = some pt →
    c.gcmEnc key iv pt = (ct, tag)

/-- Ciphertext and tag are byte lists when key and IV are. -/
def GCMBytes (c : Crypto) : Prop :=
  ∀ key iv pt, key.all (· < 256) = true → iv.all (· < 256) = true →
    latin1 pt = true →
    (c.gcmEnc key iv pt).1.all (· < 256) = true ∧
    (c.gcmEnc key iv pt).2.all (· < 256) = true

/-- Injectivity of encryption at a fixed IV across keys and plaintexts
(ideal-cipher separation of blobs produced under different keys). -/
def GCMEncInj (c : Crypto) : Prop :=
  ∀ k k2 iv a b, c.gcmEnc k iv a = c.gcmEnc k2 iv b → k = k2 ∧ a = b

/-- SHA-256 digests are byte lists. -/
def SHA256Bytes (c : Crypto) : Prop := ∀ s, (c.sha256s s).all (· < 256) = true

/-- SHA-512 digests are 64 bytes long. -/
def SHA512Len (c : Crypto) : Prop := ∀ s, (c.sha512s s).length = 64

-- ── A concrete computable instantiation of the primitives ──────────────────

/-- Bytes back to a string, as the `utf8` decode of Latin-1 byte values. -/
def bytesStr (l : List Nat) : String := String.mk (l.map (fun n => Char.ofNat n))

/-- Simple computable stand-ins for the cryptographic primitives, used to
evaluate the model on concrete inputs. -/
def toyCrypto : Crypto where
  sha256s s := [s.data.length % 256]
  sha512s s := List.replicate 63 0 ++ [s.data.length % 256]
  hmacSha512 k m := (k ++ m ++ List.replicate 64 0).take 64
  gcmEnc key iv pt := (strBytes pt, key ++ iv ++ strBytes pt)
  gcmDec key iv tag ct :=
    if tag = key ++ iv ++ ct ∧ ct.all (· < 256) = true then some (bytesStr ct) else none
  pubFromSeed k := String.mk ('G' :: hexOf k)
  secFromSeed k := String.mk ('S' :: hexOf k)

-- ── Uniqueness invariant of merchant indices ───────────────────────────────

/-- Invariant: every assigned index is below the counter, and assigned
indices are injective across merchants. -/
def DBInv (s : DBState) : Prop :=
  (∀ mid i, assignedIx s mid = some i → i < gcVal s) ∧
  (∀ m1 m2 i1 i2, m1 ≠ m2 → assignedIx s m1 = some i1 →
    assignedIx s m2 = some i2 → i1 ≠ i2)

/-- The path shape the spec says `regenerateKeypairFromPath` validates:
exactly `m/44'/148'/N'/M'` with non-negative integers `N`, `M`
(a comparison definition written from the spec's words, not the code). -/
def specPathForm (s : String) : Bool :=
  match splitOnChar '/' s.data with
  | [a, b, c2, n, p] =>
    decide (a = ['m']) && decide (b = seg44) && decide (c2 = seg148)
      && segOk n && segOk p
  | _ => false

/-- Success test on an `Except` value. -/
def isOkE {ε α : Type} : Except ε α → Bool
  | Except.ok _ => true
  | Except.error _ => false

-- ── Concrete evaluation data ───────────────────────────────────────────────

/-- Fresh service state with empty store and no cached seed. -/
def svc0 : SvcState := ⟨none, dbInit⟩

/-- A first address derivation on the toy primitives. -/
def c1run : Except DerivErr (DerivedAddress × SvcState) :=
  derivePaymentAddress toyCrypto ("seed0") svc0 ("A") ("p")

/-- The successful result of `c1run` (with an irrelevant fallback). -/
def c1res : DerivedAddress × SvcState :=
  match c1run with
  | Except.ok v => v
  | Except.error _ => (⟨"", 0, 0, ""⟩, svc0)

/-- A store with one mapped merchant. -/
def db1 : DBState :=
  ⟨some 1, fun k => if k = ("A" : String) then some ⟨0, 5⟩ else none⟩

/-- Constant key-wrapping stub. -/
def w4 : List Nat → String := fun _ => "EDK"

/-- Matching unwrap stub. -/
def u4 : String → Option (List Nat) :=
  fun s => if s = ("EDK" : String) then some [1, 2] else none

/-- IV used in codec evaluations. -/
def c5iv : List Nat := [1]

/-- Ciphertext bytes of the evaluated codec blob. -/
def c5ct : List Nat := (toyCrypto.gcmEnc (localKey toyCrypto none) c5iv (jsonStr 2 3)).1

/-- Tag bytes of the evaluated codec blob. -/
def c5tag : List Nat := (toyCrypto.gcmEnc (localKey toyCrypto none) c5iv (jsonStr 2 3)).2

/-- A genuine blob for the codec evaluation. -/
def c5blobGood : String := encryptKeyData toyCrypto none EncBackend.localOnly c5iv 2 3

/-- A well-formed blob whose tag does not verify. -/
def c5blobBad : String :=
  String.mk (hexOf [1] ++ ':' :: (hexOf [9, 9] ++ ':' :: hexOf [1, 2]))

/-- A 64-character hex seed. -/
def hex64zeros : String := String.mk (List.replicate 64 '0')

theorem natDigitsF_irrel : ∀ (n f1 f2 : Nat), n ≤ f1 → n ≤ f2 →
    natDigitsF f1 n = natDigitsF f2 n := by
  intro n
  induction n using Nat.strongRecOn with
  | _ n ih =>
    intro f1 f2 h1 h2
    cases f1 with
    | zero =>
      cases f2 with
      | zero => rfl
      | succ f2 =>
        have hn : n = 0 := by omega
        subst hn
        simp [natDigitsF]
    | succ f1 =>
      cases f2 with
      | zero =>
        have hn : n = 0 := by omega
        subst hn
        simp [natDigitsF]
      | succ f2 =>
        simp only [natDigitsF]
        by_cases hlt : n < 10
        · rw [if_pos hlt, if_pos hlt]
        · rw [if_neg hlt, if_neg hlt]
          have hd : n / 10 < n := Nat.div_lt_self (by omega) (by omega)
          rw [ih (n / 10) hd f1 f2 (by omega) (by omega)]

theorem natDigits_eq (n : Nat) : natDigits n =
    if n < 10 then [digitChar n]
    else natDigits (n / 10) ++ [digitChar (n % 10)] := by
  unfold natDigits
  by_cases hlt : n < 10
  · rw [if_pos hlt]
    cases n with
    | zero => rfl
    | succ m =>
      simp only [natDigitsF]
      rw [if_pos hlt]
  · rw [if_neg hlt]
    cases n with
    | zero => omega
    | succ m =>
      simp only [natDigitsF]
      rw [if_neg hlt]
      have hd : (m + 1) / 10 < m + 1 := Nat.div_lt_self (by omega) (by omega)
      rw [natDigitsF_irrel ((m + 1) / 10) m ((m + 1) / 10) (by omega) (by omega)]

-- ── Basic lemmas about digits ──────────────────────────────────────────────

theorem natDigits_ne_nil (n : Nat) : natDigits n ≠ [] := by
  rw [natDigits_eq]
  split
  · simp
  · simp

theorem isDig_digitChar {n : Nat} (h : n < 10) : isDig (digitChar n) = true := by
  interval_cases n <;> decide

theorem natDigits_all_isDig (n : Nat) : (natDigits n).all isDig = true := by
  induction n using Nat.strongRecOn with
  | _ n ih =>
    rw [natDigits_eq]
    split
    · next h => simp [isDig_digitChar h]
    · next h =>
      rw [List.all_append]
      simp [ih (n / 10) (Nat.div_lt_self (by omega) (by omega)),
        isDig_digitChar (Nat.mod_lt n (show 0 < 10 by omega))]

theorem digitChar_toNat {n : Nat} (h : n < 10) : (digitChar n).toNat = 48 + n := by
  interval_cases n <;> decide

theorem foldl_natDigits (n : Nat) :
    ∀ v : Nat, (natDigits n).foldl (fun a ch => a * 10 + (ch.toNat - 48)) v
      = v * 10 ^ (natDigits n).length + n := by
  induction n using Nat.strongRecOn with
  | _ n ih =>
    intro v
    rw [natDigits_eq]
    split
    · next h =>
      simp [List.foldl, digitChar_toNat h]
    · next h =>
      rw [List.foldl_append, ih (n / 10) (Nat.div_lt_self (by omega) (by omega)),
        List.length_append]
      simp only [List.foldl, List.length_cons, List.length_nil,
        digitChar_toNat (Nat.mod_lt n (show 0 < 10 by omega))]
      rw [pow_succ]
      generalize 10 ^ (natDigits (n / 10)).length = A
      have expand : v * (A * 10) = v * A * 10 := by ring
      omega

theorem digitsVal_natDigits (n : Nat) : digitsVal (natDigits n) = n := by
  have h := foldl_natDigits n 0
  simpa [digitsVal] using h

-- ── Hex lemmas ─────────────────────────────────────────────────────────────

theorem hexVal_hexDigit {k : Nat} (h : k < 16) : hexVal (hexDigit k) = some k := by
  interval_cases k <;> decide

theorem hexDigit_ne_colon {k : Nat} (h : k < 16) : hexDigit k ≠ ':' := by
  interval_cases k <;> decide

theorem hexDigit_ne_bar {k : Nat} (h : k < 16) : hexDigit k ≠ '|' := by
  interval_cases k <;> decide

theorem fromHexL_hexOf : ∀ bs : List Nat, bs.all (· < 256) = true →
    fromHexL (hexOf bs) = bs := by
  intro bs
  induction bs with
  | nil => intro _; rfl
  | cons b bs ih =>
    intro hall
    rw [List.all_cons, Bool.and_eq_true] at hall
    have hb : b < 256 := by simpa using hall.1
    have h1 : b / 16 < 16 := by omega
    have h2 : b % 16 < 16 := by omega
    simp only [hexOf, fromHexL, hexVal_hexDigit h1, hexVal_hexDigit h2, ih hall.2]
    congr 1
    omega

theorem hexOf_mem_ne {c : Char} : ∀ bs : List Nat, bs.all (· < 256) = true →
    c ∈ hexOf bs → (c ≠ ':' ∧ c ≠ '|') := by
  intro bs
  induction bs with
  | nil => intro _ h; simp [hexOf] at h
  | cons b bs ih =>
    intro hall h
    rw [List.all_cons, Bool.and_eq_true] at hall
    have hb : b < 256 := by simpa using hall.1
    simp only [hexOf, List.mem_cons] at h
    rcases h with rfl | h
    · exact ⟨hexDigit_ne_colon (by omega), hexDigit_ne_bar (by omega)⟩
    rcases h with rfl | h
    · exact ⟨hexDigit_ne_colon (by omega), hexDigit_ne_bar (by omega)⟩
    · exact ih hall.2 h

theorem hexVal_lt {ch : Char} {x : Nat} (h : hexVal ch = some x) : x < 16 := by
  unfold hexVal at h
  split at h
  · next hc => simp only [Option.some.injEq] at h; omega
  · split at h
    · next hc => simp only [Option.some.injEq] at h; omega
    · split at h
      · next hc => simp only [Option.some.injEq] at h; omega
      · simp at h

theorem fromHexL_all_lt : ∀ l : List Char, (fromHexL l).all (· < 256) = true := by
  intro l
  induction l using fromHexL.induct with
  | case1 a b rest x y hx hy ih =>
    have h1 := hexVal_lt hx
    have h2 := hexVal_lt hy
    simp only [fromHexL, hx, hy, List.all_cons, Bool.and_eq_true, ih, and_true,
      decide_eq_true_eq]
    omega
  | case2 a b rest hm =>
    rcases hx : hexVal a with _ | x
    · simp [fromHexL, hx]
    rcases hy : hexVal b with _ | y
    · simp [fromHexL, hx, hy]
    · exact absurd (hm x y) (by simp [hx, hy])
  | case3 l hne =>
    cases l with
    | nil => simp [fromHexL]
    | cons a t =>
      cases t with
      | nil => simp [fromHexL]
      | cons b r => exact (hne a b r rfl).elim

theorem fromHexL_length : ∀ l : List Char,
    (l.all (fun ch => (hexVal ch).isSome)) = true →
    (fromHexL l).length = l.length / 2 := by
  intro l
  induction l using fromHexL.induct with
  | case1 a b rest x y hx hy ih =>
    intro hall
    simp only [List.all_cons, Bool.and_eq_true] at hall
    simp only [fromHexL, hx, hy, List.length_cons, ih hall.2.2]
    omega
  | case2 a b rest hm =>
    intro hall
    simp only [List.all_cons, Bool.and_eq_true] at hall
    rcases hx : hexVal a with _ | x
    · simp [hx] at hall
    rcases hy : hexVal b with _ | y
    · simp [hy] at hall
    exact absurd (hm x y) (by simp [hx, hy])
  | case3 l hne =>
    intro _
    cases l with
    | nil => simp [fromHexL]
    | cons a t =>
      cases t with
      | nil => simp [fromHexL]
      | cons b r => exact (hne a b r rfl).elim

-- ── splitOnChar lemmas ─────────────────────────────────────────────────────

theorem splitOnChar_cons (sep c : Char) (cs : List Char) :
    splitOnChar sep (c :: cs) =
      match splitOnChar sep cs with
      | [] => [[]]
      | g :: gs => if c = sep then [] :: g :: gs else (c :: g) :: gs := rfl

theorem splitOnChar_ne_nil (sep : Char) : ∀ l : List Char, splitOnChar sep l ≠ [] := by
  intro l
  induction l with
  | nil => simp [splitOnChar]
  | cons c cs ih =>
    cases h : splitOnChar sep cs with
    | nil => rw [splitOnChar_cons, h]; simp
    | cons g gs =>
      rw [splitOnChar_cons, h]
      by_cases hc : c = sep <;> simp [hc]

theorem splitOnChar_no_sep (sep : Char) : ∀ l : List Char,
    (∀ c ∈ l, c ≠ sep) → splitOnChar sep l = [l] := by
  intro l
  induction l with
  | nil => intro _; rfl
  | cons c cs ih =>
    intro h
    have hcs := ih (fun x hx => h x (List.mem_cons_of_mem _ hx))
    rw [splitOnChar_cons, hcs]
    simp [h c (List.mem_cons_self c cs)]

theorem splitOnChar_append (sep : Char) : ∀ a b : List Char,
    (∀ c ∈ a, c ≠ sep) →
    splitOnChar sep (a ++ sep :: b) = a :: splitOnChar sep b := by
  intro a
  induction a with
  | nil =>
    intro b _
    simp only [List.nil_append]
    rw [splitOnChar_cons]
    rcases h : splitOnChar sep b with _ | ⟨g, gs⟩
    · exact absurd h (splitOnChar_ne_nil sep b)
    · simp
  | cons c cs ih =>
    intro b h
    have hc : c ≠ sep := h c (List.mem_cons_self c cs)
    simp only [List.cons_append]
    rw [splitOnChar_cons, ih b (fun x hx => h x (List.mem_cons_of_mem _ hx))]
    simp [hc]

-- ── dropLit / parse lemmas ─────────────────────────────────────────────────

theorem dropLit_append : ∀ pre l : List Char, dropLit pre (pre ++ l) = some l := by
  intro pre
  induction pre with
  | nil => intro l; simp [dropLit]
  | cons c cs ih => intro l; simp [dropLit, ih]

theorem takeWhile_append_of_all {p : Char → Bool} : ∀ a b : List Char,
    a.all p = true → (a ++ b).takeWhile p = a ++ b.takeWhile p := by
  intro a
  induction a with
  | nil => intro b _; rfl
  | cons c cs ih =>
    intro b h
    rw [List.all_cons, Bool.and_eq_true] at h
    simp [List.takeWhile_cons, h.1, ih b h.2]

theorem dropWhile_append_of_all {p : Char → Bool} : ∀ a b : List Char,
    a.all p = true → (a ++ b).dropWhile p = b.dropWhile p := by
  intro a
  induction a with
  | nil => intro b _; rfl
  | cons c cs ih =>
    intro b h
    rw [List.all_cons, Bool.and_eq_true] at h
    simp [List.dropWhile_cons, h.1, ih b h.2]

theorem parseNatChars_natDigits (n : Nat) (rest : List Char)
    (hrest : ∀ ch, rest.head? = some ch → isDig ch = false) :
    parseNatChars (natDigits n ++ rest) = some (n, rest) := by
  have hall := natDigits_all_isDig n
  have htw : rest.takeWhile isDig = [] := by
    cases rest with
    | nil => rfl
    | cons r rs =>
      have := hrest r rfl
      simp [List.takeWhile_cons, this]
  have hdw : rest.dropWhile isDig = rest := by
    cases rest with
    | nil => rfl
    | cons r rs =>
      have := hrest r rfl
      simp [List.dropWhile_cons, this]
  unfold parseNatChars
  rw [takeWhile_append_of_all _ _ hall, dropWhile_append_of_all _ _ hall, htw, hdw]
  have hne := natDigits_ne_nil n
  simp only [List.append_nil, List.isEmpty_iff]
  rw [if_neg hne]
  rw [digitsVal_natDigits]

theorem isDig_ne {ch : Char} (h : isDig ch = true) : ch ≠ Char.ofNat 45 := by
  intro heq
  rw [heq] at h
  simp [isDig] at h

theorem natDigits_head_isDig (n : Nat) : ∀ ch,
    (natDigits n).head? = some ch → isDig ch = true := by
  have hall := natDigits_all_isDig n
  intro ch hh
  cases hd : natDigits n with
  | nil => exact absurd hd (natDigits_ne_nil n)
  | cons d ds =>
    rw [hd] at hh hall
    rw [List.all_cons, Bool.and_eq_true] at hall
    simp only [List.head?] at hh
    cases hh
    exact hall.1

theorem parseIntChars_intChars (m : Int) (rest : List Char)
    (hrest : ∀ ch, rest.head? = some ch → isDig ch = false) :
    parseIntChars (intChars m ++ rest) = some (m, rest) := by
  have hp : parseNatChars (natDigits m.natAbs ++ rest) = some (m.natAbs, rest) :=
    parseNatChars_natDigits _ _ hrest
  by_cases hm : m < 0
  · have heq : intChars m ++ rest = Char.ofNat 45 :: (natDigits m.natAbs ++ rest) := by
      simp [intChars, if_pos hm]
    rw [heq]
    unfold parseIntChars
    simp only [List.head?_cons, List.tail_cons, if_true]
    rw [hp]
    have habs : ((m.natAbs : Int)) = -m := by omega
    simp [habs]
  · obtain ⟨d, ds, hd⟩ : ∃ d ds, natDigits m.natAbs = d :: ds := by
      cases hnd : natDigits m.natAbs with
      | nil => exact absurd hnd (natDigits_ne_nil _)
      | cons d ds => exact ⟨d, ds, rfl⟩
    have hdig : isDig d = true := by
      have h1 := natDigits_head_isDig m.natAbs d
      rw [hd] at h1
      exact h1 rfl
    have heq : intChars m ++ rest = d :: (ds ++ rest) := by
      simp [intChars, if_neg hm, hd]
    have hp2 : parseNatChars (d :: (ds ++ rest)) = some (m.natAbs, rest) := by
      rw [hd, List.cons_append] at hp
      exact hp
    rw [heq]
    unfold parseIntChars
    rw [if_neg (by
      simp only [List.head?_cons, Option.some.injEq]
      intro hc
      exact isDig_ne hdig hc)]
    rw [hp2]
    have habs : ((m.natAbs : Int)) = m := by omega
    simp [habs]

theorem jsonParsePair_jsonStr (m p : Int) : jsonParsePair (jsonStr m p) = some (m, p) := by
  have h1 : parseIntChars (intChars m ++ (jsonKeyP ++ (intChars p ++ [braceClose])))
      = some (m, jsonKeyP ++ (intChars p ++ [braceClose])) := by
    refine parseIntChars_intChars m _ ?_
    intro ch hh
    simp only [jsonKeyP, List.cons_append, List.head?_cons, Option.some.injEq] at hh
    subst hh
    decide
  have h2 : parseIntChars (intChars p ++ [braceClose]) = some (p, [braceClose]) := by
    refine parseIntChars_intChars p _ ?_
    intro ch hh
    simp only [List.head?_cons, Option.some.injEq] at hh
    subst hh
    decide
  unfold jsonParsePair jsonStr
  have hdata : (String.mk (jsonKeyM ++ intChars m ++ jsonKeyP ++ intChars p
      ++ [braceClose])).data
      = jsonKeyM ++ (intChars m ++ (jsonKeyP ++ (intChars p ++ [braceClose]))) := by
    simp [List.append_assoc]
  rw [hdata]
  simp only [dropLit_append, h1, h2]
  simp

-- ── Path facts ─────────────────────────────────────────────────────────────

theorem isDig_ne_slash {ch : Char} (h : isDig ch = true) : ch ≠ '/' := by
  intro heq
  subst heq
  exact absurd h (by decide)

theorem intChars_no_slash (m : Int) : ∀ c ∈ intChars m, c ≠ '/' := by
  intro c hc
  unfold intChars at hc
  have hdig : ∀ x ∈ natDigits m.natAbs, isDig x = true := by
    intro x hx
    exact List.all_eq_true.mp (natDigits_all_isDig m.natAbs) x hx
  split at hc
  · rcases List.mem_cons.mp hc with rfl | hmem
    · decide
    · exact isDig_ne_slash (hdig c hmem)
  · exact isDig_ne_slash (hdig c hc)

theorem splitOnChar_renderPath (mi pi : Int) :
    splitOnChar '/' (renderPath mi pi).data =
      [['m'], seg44, seg148, intChars mi ++ [hq], intChars pi ++ [hq]] := by
  have hm : ∀ c ∈ (['m'] : List Char), c ≠ '/' := by intro c hc; simp at hc; subst hc; decide
  have h44 : ∀ c ∈ seg44, c ≠ '/' := by intro c hc; fin_cases hc <;> decide
  have h148 : ∀ c ∈ seg148, c ≠ '/' := by intro c hc; fin_cases hc <;> decide
  have hq_ne : (hq : Char) ≠ '/' := by decide
  have hsegM : ∀ c ∈ intChars mi ++ [hq], c ≠ '/' := by
    intro c hc
    rcases List.mem_append.mp hc with hmem | hmem
    · exact intChars_no_slash mi c hmem
    · simp at hmem; subst hmem; exact hq_ne
  have hsegP : ∀ c ∈ intChars pi ++ [hq], c ≠ '/' := by
    intro c hc
    rcases List.mem_append.mp hc with hmem | hmem
    · exact intChars_no_slash pi c hmem
    · simp at hmem; subst hmem; exact hq_ne
  show splitOnChar '/' (['m'] ++ '/' :: seg44 ++ '/' :: seg148
    ++ '/' :: (intChars mi ++ [hq]) ++ '/' :: (intChars pi ++ [hq])) = _
  rw [show (['m'] ++ '/' :: seg44 ++ '/' :: seg148
      ++ '/' :: (intChars mi ++ [hq]) ++ '/' :: (intChars pi ++ [hq]))
    = ['m'] ++ '/' :: (seg44 ++ '/' :: (seg148
      ++ '/' :: ((intChars mi ++ [hq]) ++ '/' :: (intChars pi ++ [hq])))) by
    simp [List.append_assoc]]
  rw [splitOnChar_append _ _ _ hm, splitOnChar_append _ _ _ h44,
    splitOnChar_append _ _ _ h148, splitOnChar_append _ _ _ hsegM,
    splitOnChar_no_sep _ _ hsegP]

theorem segOk_digits (n : Nat) : segOk (natDigits n ++ [hq]) = true := by
  unfold segOk
  have hrev : (natDigits n ++ [hq]).reverse = hq :: (natDigits n).reverse := by simp
  have hne : (natDigits n).reverse ≠ [] := by simpa using natDigits_ne_nil n
  obtain ⟨d, ds, hd⟩ : ∃ d ds, (natDigits n).reverse = d :: ds := by
    cases h : (natDigits n).reverse with
    | nil => exact absurd h hne
    | cons d ds => exact ⟨d, ds, rfl⟩
  have hall : ((d :: ds).all isDig) = true := by
    rw [← hd, List.all_reverse]
    exact natDigits_all_isDig n
  rw [hrev, hd]
  simp [hall]

theorem segOk_minus (n : Nat) : segOk ((Char.ofNat 45 :: natDigits n) ++ [hq]) = false := by
  unfold segOk
  have hrev : ((Char.ofNat 45 :: natDigits n) ++ [hq]).reverse
      = hq :: ((natDigits n).reverse ++ [Char.ofNat 45]) := by
    simp
  rw [hrev]
  have hall : ((natDigits n).reverse ++ [Char.ofNat 45]).all isDig = false := by
    rw [List.all_append]
    simp [isDig]
  simp [hall]

theorem parseSeg_digits (n : Nat) : parseSeg (natDigits n ++ [hq]) = n := by
  unfold parseSeg
  rw [List.dropLast_concat, digitsVal_natDigits]

theorem parseSeg_seg44 : parseSeg seg44 = 44 := by decide

theorem parseSeg_seg148 : parseSeg seg148 = 148 := by decide

theorem isValidPath_split (s : String) (h : List Char) (segs : List (List Char))
    (hsplit : splitOnChar '/' s.data = h :: segs) :
    isValidPath s = (decide (h = ['m']) && !segs.isEmpty && segs.all segOk) := by
  unfold isValidPath
  rw [hsplit]

theorem intChars_nonneg (m : Int) (hm : 0 ≤ m) : intChars m = natDigits m.natAbs := by
  have : ¬m < 0 := by omega
  simp [intChars, this]

theorem intChars_neg (m : Int) (hm : m < 0) :
    intChars m = Char.ofNat 45 :: natDigits m.natAbs := by
  simp [intChars, hm]

theorem isValidPath_renderPath_nonneg (mi pi : Int) (hmi : 0 ≤ mi) (hpi : 0 ≤ pi) :
    isValidPath (renderPath mi pi) = true := by
  rw [isValidPath_split _ _ _ (splitOnChar_renderPath mi pi)]
  rw [intChars_nonneg mi hmi, intChars_nonneg pi hpi]
  have h44 : segOk seg44 = true := by decide
  have h148 : segOk seg148 = true := by decide
  simp [List.all_cons, h44, h148, segOk_digits]

theorem isValidPath_renderPath_neg (mi pi : Int) (h : mi < 0 ∨ pi < 0) :
    isValidPath (renderPath mi pi) = false := by
  rw [isValidPath_split _ _ _ (splitOnChar_renderPath mi pi)]
  rcases h with hmi | hpi
  · rw [intChars_neg mi hmi, List.cons_append]
    have := segOk_minus mi.natAbs
    rw [List.cons_append] at this
    simp [List.all_cons, this]
  · rw [intChars_neg pi hpi, List.cons_append]
    have := segOk_minus pi.natAbs
    rw [List.cons_append] at this
    simp [List.all_cons, this]

theorem toNat_ofNat_lt {n : Nat} (h : n < 256) : (Char.ofNat n).toNat = n := by
  have hv : n.isValidChar := Or.inl (by omega)
  rw [Char.ofNat, dif_pos hv]
  simp [Char.ofNatAux, Char.toNat, UInt32.toNat, BitVec.toNat_ofNatLt]

theorem ofNat_toNat_char {ch : Char} (_h : ch.toNat < 256) : Char.ofNat ch.toNat = ch :=
  Char.ofNat_toNat ch

theorem strBytes_bytesStr {l : List Nat} (h : l.all (· < 256) = true) :
    strBytes (bytesStr l) = l := by
  unfold strBytes bytesStr
  induction l with
  | nil => rfl
  | cons b bs ih =>
    rw [List.all_cons, Bool.and_eq_true] at h
    have hb : b < 256 := by simpa using h.1
    simp only [List.map_cons, List.map_map]
    have := ih h.2
    simp only [List.map_map] at this
    rw [Function.comp_def]
    simp only [Function.comp_def] at this
    rw [show ((Char.ofNat b).toNat) = b from toNat_ofNat_lt hb]
    exact congrArg (b :: ·) this

theorem map_ofNat_toNat : ∀ l : List Char,
    (l.map Char.toNat).map (fun n => Char.ofNat n) = l := by
  intro l
  induction l with
  | nil => rfl
  | cons ch cs ih =>
    simp only [List.map_cons, Char.ofNat_toNat]
    exact congrArg (ch :: ·) ih

theorem bytesStr_strBytes {pt : String} (_h : latin1 pt = true) :
    bytesStr (strBytes pt) = pt := by
  unfold strBytes bytesStr
  cases pt with
  | mk l =>
    exact congrArg String.mk (map_ofNat_toNat l)

theorem map_toNat_all_lt : ∀ l : List Char,
    (l.all fun ch => decide (ch.toNat < 256)) = true →
    (l.map Char.toNat).all (· < 256) = true := by
  intro l
  induction l with
  | nil => intro _; rfl
  | cons ch cs ih =>
    intro h
    simp only [List.all_cons, Bool.and_eq_true] at h
    simp only [List.map_cons, List.all_cons, Bool.and_eq_true]
    exact ⟨h.1, ih h.2⟩

theorem strBytes_all_lt {pt : String} (h : latin1 pt = true) :
    (strBytes pt).all (· < 256) = true := by
  unfold latin1 at h
  unfold strBytes
  exact map_toNat_all_lt pt.data h

theorem char_toNat_injective : Function.Injective Char.toNat := by
  intro x y hxy
  apply Char.ext
  unfold Char.toNat at hxy
  exact UInt32.toNat.inj hxy

theorem strBytes_inj {a b : String} (h : strBytes a = strBytes b) : a = b := by
  unfold strBytes at h
  cases a with
  | mk la =>
    cases b with
    | mk lb =>
      exact congrArg String.mk
        (List.map_injective_iff.mpr char_toNat_injective h)

theorem toyGCMCorrect : GCMCorrect toyCrypto := by
  intro key iv pt h
  show (if (key ++ iv ++ strBytes pt) = key ++ iv ++ strBytes pt
      ∧ (strBytes pt).all (· < 256) = true
    then some (bytesStr (strBytes pt)) else none) = some pt
  rw [if_pos ⟨rfl, strBytes_all_lt h⟩, bytesStr_strBytes h]

theorem toyGCMAuth : GCMAuth toyCrypto := by
  intro key iv tag ct pt h
  simp only [toyCrypto] at h ⊢
  split at h
  · next hc =>
    simp only [Option.some.injEq] at h
    subst h
    rw [strBytes_bytesStr hc.2, hc.1]
  · simp at h

theorem toyGCMBytes : GCMBytes toyCrypto := by
  intro key iv pt hk hiv hpt
  simp only [toyCrypto]
  refine ⟨strBytes_all_lt hpt, ?_⟩
  rw [List.all_append, List.all_append]
  simp [hk, hiv, strBytes_all_lt hpt]

theorem toyGCMEncInj : GCMEncInj toyCrypto := by
  intro k k2 iv a b h
  simp only [toyCrypto, Prod.mk.injEq] at h
  obtain ⟨h1, h2⟩ := h
  refine ⟨?_, strBytes_inj h1⟩
  rw [h1] at h2
  rw [List.append_assoc, List.append_assoc] at h2
  exact List.append_cancel_right h2

theorem toySHA256Bytes : SHA256Bytes toyCrypto := by
  intro s
  simp only [toyCrypto, List.all_cons, List.all_nil]
  simp
  omega

theorem toySHA512Len : SHA512Len toyCrypto := by
  intro s
  simp [toyCrypto]

-- ── Allocator lemmas ───────────────────────────────────────────────────────

theorem getMerchantIndex_mem (s : DBState) (mid : String) (r : MerchRec)
    (h : s.merchants mid = some r) : getMerchantIndex s mid = (r.merchant_index, s) := by
  unfold getMerchantIndex
  rw [h]

theorem getMerchantIndex_fresh (s : DBState) (mid : String)
    (h : s.merchants mid = none) :
    getMerchantIndex s mid = (gcVal s,
      { globalCounter := some (gcVal s + 1),
        merchants := fun k =>
          if k = mid then some ⟨gcVal s, 0⟩ else s.merchants k }) := by
  unfold getMerchantIndex
  rw [h]
  have hg : gcVal s + 1 - 1 = gcVal s := by omega
  rw [hg]

theorem getNextPaymentIndex_mem (s : DBState) (mid : String) (i k : Nat)
    (h : s.merchants mid = some ⟨i, k⟩) :
    getNextPaymentIndex s mid = (k,
      { globalCounter := s.globalCounter,
        merchants := fun q =>
          if q = mid then some ⟨i, k + 1⟩ else s.merchants q }) := by
  unfold getNextPaymentIndex
  rw [getMerchantIndex_mem s mid ⟨i, k⟩ h]
  show (match s.merchants mid with
    | some r => ((r.payment_counter + 1) - 1,
        DBState.mk s.globalCounter (fun q =>
          if q = mid then some ⟨r.merchant_index, r.payment_counter + 1⟩
          else s.merchants q))
    | none => (0, s)) = _
  rw [h]
  dsimp only
  have hk : k + 1 - 1 = k := by omega
  rw [hk]

theorem mk_merchants_self (g : Option Nat) (f : String → Option MerchRec)
    (mid : String) (r : MerchRec) :
    (DBState.mk g (fun q => if q = mid then some r else f q)).merchants mid
      = some r := by
  simp

theorem getNextPaymentIndex_fresh (s : DBState) (mid : String)
    (h : s.merchants mid = none) :
    getNextPaymentIndex s mid = (0,
      { globalCounter := some (gcVal s + 1),
        merchants := fun q =>
          if q = mid then some ⟨gcVal s, 1⟩ else s.merchants q }) := by
  unfold getNextPaymentIndex
  rw [getMerchantIndex_fresh s mid h]
  show (match (fun k => if k = mid then some (⟨gcVal s, 0⟩ : MerchRec)
      else s.merchants k) mid with
    | some r => ((r.payment_counter + 1) - 1,
        DBState.mk (some (gcVal s + 1)) (fun q =>
          if q = mid then some ⟨r.merchant_index, r.payment_counter + 1⟩
          else if q = mid then some ⟨gcVal s, 0⟩ else s.merchants q))
    | none => (0, DBState.mk (some (gcVal s + 1))
        (fun k => if k = mid then some ⟨gcVal s, 0⟩ else s.merchants k))) = _
  have hmem : ((fun k => if k = mid then some (⟨gcVal s, 0⟩ : MerchRec)
      else s.merchants k) mid) = some ⟨gcVal s, 0⟩ := by simp
  rw [hmem]
  dsimp only
  have hfun : (fun q => if q = mid then some (⟨gcVal s, 0 + 1⟩ : MerchRec)
      else if q = mid then some ⟨gcVal s, 0⟩ else s.merchants q)
      = fun q => if q = mid then some (⟨gcVal s, 1⟩ : MerchRec) else s.merchants q := by
    funext q
    by_cases hq : q = mid <;> simp [hq]
  rw [hfun]

theorem payIndexSeq_from (n : Nat) : ∀ (s : DBState) (mid : String) (i k : Nat),
    s.merchants mid = some ⟨i, k⟩ → payIndexSeq s mid n = List.range' k n := by
  induction n with
  | zero => intro s mid i k _; rfl
  | succ n ih =>
    intro s mid i k h
    show (getNextPaymentIndex s mid).1
        :: payIndexSeq (getNextPaymentIndex s mid).2 mid n = _
    rw [getNextPaymentIndex_mem s mid i k h]
    dsimp only
    rw [ih _ mid i (k + 1) (mk_merchants_self _ _ _ _), List.range'_succ]

theorem payIndexSeq_fresh (s : DBState) (mid : String) (n : Nat)
    (h : s.merchants mid = none) : payIndexSeq s mid n = List.range n := by
  cases n with
  | zero => rfl
  | succ n =>
    show (getNextPaymentIndex s mid).1
        :: payIndexSeq (getNextPaymentIndex s mid).2 mid n = _
    rw [getNextPaymentIndex_fresh s mid h]
    dsimp only
    rw [payIndexSeq_from n _ mid (gcVal s) 1 (mk_merchants_self _ _ _ _)]
    rw [List.range_eq_range', List.range'_succ]

theorem assignedIx_merch (s : DBState) (mid m : String) :
    assignedIx (getMerchantIndex s mid).2 m
      = if s.merchants mid = none ∧ m = mid then some (gcVal s)
        else assignedIx s m := by
  cases h : s.merchants mid with
  | some r =>
    rw [getMerchantIndex_mem s mid r h]
    simp [h]
  | none =>
    rw [getMerchantIndex_fresh s mid h]
    by_cases hm : m = mid
    · simp [assignedIx, hm]
    · simp [assignedIx, hm]

theorem gcVal_merch (s : DBState) (mid : String) :
    gcVal (getMerchantIndex s mid).2
      = if s.merchants mid = none then gcVal s + 1 else gcVal s := by
  cases h : s.merchants mid with
  | some r => rw [getMerchantIndex_mem s mid r h]; simp [h]
  | none => rw [getMerchantIndex_fresh s mid h]; simp [h, gcVal]

theorem assignedIx_pay (s : DBState) (mid m : String) :
    assignedIx (getNextPaymentIndex s mid).2 m
      = assignedIx (getMerchantIndex s mid).2 m := by
  unfold getNextPaymentIndex
  cases h : ((getMerchantIndex s mid).2).merchants mid with
  | some r =>
    simp only [h]
    by_cases hm : m = mid
    · subst hm
      simp [assignedIx, h]
    · simp [assignedIx, hm]
  | none => simp [h]

theorem gcVal_pay (s : DBState) (mid : String) :
    gcVal (getNextPaymentIndex s mid).2 = gcVal (getMerchantIndex s mid).2 := by
  unfold getNextPaymentIndex
  cases h : ((getMerchantIndex s mid).2).merchants mid with
  | some r => simp only [h]; rfl
  | none => simp [h]

theorem inv_merch (s : DBState) (mid : String) (hInv : DBInv s) :
    DBInv (getMerchantIndex s mid).2 := by
  obtain ⟨hbound, hinj⟩ := hInv
  constructor
  · intro m i hi
    rw [assignedIx_merch] at hi
    rw [gcVal_merch]
    split at hi
    · next hc =>
      rw [if_pos hc.1]
      simp only [Option.some.injEq] at hi
      omega
    · next hc =>
      have := hbound m i hi
      split <;> omega
  · intro m1 m2 i1 i2 hne h1 h2
    rw [assignedIx_merch] at h1 h2
    split at h1 <;> split at h2
    · next hc1 hc2 => exact absurd (hc1.2.trans hc2.2.symm) hne
    · next hc1 hc2 =>
      simp only [Option.some.injEq] at h1
      have := hbound m2 i2 h2
      omega
    · next hc1 hc2 =>
      simp only [Option.some.injEq] at h2
      have := hbound m1 i1 h1
      omega
    · exact hinj m1 m2 i1 i2 hne h1 h2

theorem inv_pay (s : DBState) (mid : String) (hInv : DBInv s) :
    DBInv (getNextPaymentIndex s mid).2 := by
  have h1 := inv_merch s mid hInv
  obtain ⟨hbound, hinj⟩ := h1
  constructor
  · intro m i hi
    rw [assignedIx_pay] at hi
    rw [gcVal_pay]
    exact hbound m i hi
  · intro m1 m2 i1 i2 hne ha hb
    rw [assignedIx_pay] at ha hb
    exact hinj m1 m2 i1 i2 hne ha hb

theorem applyOp_inv (s : DBState) (op : WOp) (hInv : DBInv s) :
    DBInv (applyOp s op) := by
  cases op with
  | merch mid => exact inv_merch s mid hInv
  | pay mid => exact inv_pay s mid hInv

theorem applyOp_assigned (s : DBState) (op : WOp) (m : String) (i : Nat)
    (h : assignedIx s m = some i) : assignedIx (applyOp s op) m = some i := by
  cases op with
  | merch mid =>
    show assignedIx (getMerchantIndex s mid).2 m = some i
    rw [assignedIx_merch]
    split
    · next hc =>
      rw [hc.2] at h
      rw [assignedIx, hc.1] at h
      simp at h
    · exact h
  | pay mid =>
    show assignedIx (getNextPaymentIndex s mid).2 m = some i
    rw [assignedIx_pay, assignedIx_merch]
    split
    · next hc =>
      rw [hc.2] at h
      rw [assignedIx, hc.1] at h
      simp at h
    · exact h

theorem runOps_inv (ops : List WOp) : ∀ s : DBState, DBInv s → DBInv (runOps s ops) := by
  induction ops with
  | nil => intro s h; exact h
  | cons op rest ih => intro s h; exact ih _ (applyOp_inv s op h)

theorem runOps_assigned (ops : List WOp) : ∀ (s : DBState) (m : String) (i : Nat),
    assignedIx s m = some i → assignedIx (runOps s ops) m = some i := by
  induction ops with
  | nil => intro s m i h; exact h
  | cons op rest ih => intro s m i h; exact ih _ m i (applyOp_assigned s op m i h)

theorem runOps_append (a b : List WOp) : ∀ s : DBState,
    runOps s (a ++ b) = runOps (runOps s a) b := by
  induction a with
  | nil => intro s; rfl
  | cons op rest ih => intro s; exact ih (applyOp s op)

theorem dbInit_inv : DBInv dbInit := by
  constructor
  · intro mid i h
    simp [assignedIx, dbInit] at h
  · intro m1 m2 i1 i2 _ h1 _
    simp [assignedIx, dbInit] at h1

-- ── Seed cache and derivation lemmas ───────────────────────────────────────

theorem getMasterSeedOp_idem (ps : String) (cache : Option String) :
    getMasterSeedOp ps (getMasterSeedOp ps cache).2 = getMasterSeedOp ps cache := by
  unfold getMasterSeedOp
  cases cache with
  | none =>
    dsimp only
    by_cases he : ps.isEmpty <;> simp [he]
  | some s =>
    dsimp only
    by_cases hs : s.isEmpty
    · rw [if_pos hs]
      dsimp only
      by_cases he : ps.isEmpty <;> simp [he]
    · rw [if_neg hs]
      dsimp only
      rw [if_neg hs]

theorem getSeedBuffer_fst_idem (c : Crypto) (ps : String) (cache : Option String) :
    (getSeedBuffer c ps (getSeedBuffer c ps cache).2).1
      = (getSeedBuffer c ps cache).1 :=
  congrArg (fun r : String × Option String => seedBufOf c r.1)
    (getMasterSeedOp_idem ps cache)

theorem ckdPriv_ok (c : Crypto) (kc : KeyCC) (seg : Nat) (h : seg ≤ 2147483647) :
    ckdPriv c kc seg = Except.ok
      ⟨(c.hmacSha512 kc.chainCode (0 :: (kc.key ++ be32 (seg + 2147483648)))).take 32,
        (c.hmacSha512 kc.chainCode (0 :: (kc.key ++ be32 (seg + 2147483648)))).drop 32⟩ := by
  unfold ckdPriv
  rw [if_neg (by omega)]

theorem ckdPriv_big (c : Crypto) (kc : KeyCC) (seg : Nat) (h : 2147483648 ≤ seg) :
    ckdPriv c kc seg = Except.error DerivErr.rangeOut := by
  unfold ckdPriv
  rw [if_pos (by omega)]

theorem foldCKD_nil (c : Crypto) (kc : KeyCC) : foldCKD c [] kc = Except.ok kc := rfl

theorem foldCKD_cons (c : Crypto) (kc : KeyCC) (s : Nat) (rest : List Nat) :
    foldCKD c (s :: rest) kc = (ckdPriv c kc s).bind (foldCKD c rest) := rfl

theorem foldCKD_no_invalid (c : Crypto) : ∀ (segs : List Nat) (kc : KeyCC),
    foldCKD c segs kc ≠ Except.error DerivErr.invalidPath := by
  intro segs
  induction segs with
  | nil => intro kc h; exact Except.noConfusion h
  | cons s rest ih =>
    intro kc h
    rw [foldCKD_cons] at h
    cases hck : ckdPriv c kc s with
    | ok kc2 =>
      rw [hck] at h
      simp only [Except.bind] at h
      exact ih kc2 h
    | error e =>
      rw [hck] at h
      have he : e = DerivErr.rangeOut := by
        unfold ckdPriv at hck
        dsimp only at hck
        split at hck
        · exact (Except.error.inj hck).symm
        · exact Except.noConfusion hck
      simp only [Except.bind] at h
      rw [he] at h
      have h2 := Except.error.inj h
      exact DerivErr.noConfusion h2

theorem derivePath_invalid (c : Crypto) (path seedHex : String)
    (h : isValidPath path = false) :
    derivePath c path seedHex = Except.error DerivErr.invalidPath := by
  unfold derivePath
  rw [if_neg (by simp [h])]

theorem derivePath_invalidPath_iff (c : Crypto) (path seedHex : String) :
    derivePath c path seedHex = Except.error DerivErr.invalidPath
      ↔ isValidPath path = false := by
  constructor
  · intro h
    by_contra hv
    have hv2 : isValidPath path = true := by
      cases hb : isValidPath path
      · exact absurd hb hv
      · rfl
    unfold derivePath at h
    rw [if_pos hv2] at h
    cases hs : splitOnChar '/' path.data with
    | nil => exact absurd hs (splitOnChar_ne_nil '/' path.data)
    | cons hd tl =>
      rw [hs] at h
      exact foldCKD_no_invalid c (tl.map parseSeg) _ h
  · intro h
    exact derivePath_invalid c path seedHex h

theorem derivePath_render_nonneg (c : Crypto) (mi pi : Int) (hmi : 0 ≤ mi)
    (hpi : 0 ≤ pi) (seedHex : String) :
    derivePath c (renderPath mi pi) seedHex
      = foldCKD c [44, 148, mi.natAbs, pi.natAbs]
          (getMasterKeyFromSeed c seedHex) := by
  unfold derivePath
  rw [if_pos (isValidPath_renderPath_nonneg mi pi hmi hpi)]
  rw [splitOnChar_renderPath]
  dsimp only [List.map]
  rw [parseSeg_seg44, parseSeg_seg148, intChars_nonneg mi hmi, intChars_nonneg pi hpi,
    parseSeg_digits, parseSeg_digits]

-- ── Claims C1, C2, C3, C9 ──────────────────────────────────────────────────

/-- C1: whenever `derivePaymentAddress` succeeds, running
`regenerateKeypairFromPath` on the returned `derivationPath`, on the same
service instance (its post-call seed cache) with the same provider seed,
yields the same public key. -/
theorem C1_derive_then_regen_same_pubkey (c : Crypto) (ps : String) (st : SvcState)
    (mid pid : String) (res : DerivedAddress) (st2 : SvcState)
    (h : derivePaymentAddress c ps st mid pid = Except.ok (res, st2)) :
    (regenerateKeypairFromPath c ps st2.masterSeed res.derivationPath).1.map
      (fun kp => kp.1) = Except.ok res.publicKey := by
  unfold derivePaymentAddress at h
  dsimp only at h
  split at h
  · next ks cache2 heq =>
    simp only [Except.ok.injEq, Prod.mk.injEq] at h
    obtain ⟨hres, hst2⟩ := h
    unfold deriveKeypairFromPath at heq
    dsimp only at heq
    split at heq
    · next kc hdp =>
      simp only [Prod.mk.injEq, Except.ok.injEq] at heq
      obtain ⟨hks, hcache⟩ := heq
      subst hres
      subst hst2
      unfold regenerateKeypairFromPath
      have hmseed : (⟨cache2, (getNextPaymentIndex
          (getMerchantIndex st.db mid).2 mid).2⟩ : SvcState).masterSeed = cache2 := rfl
      rw [hmseed]
      subst hcache
      have hbuf : (getSeedBuffer c ps (getSeedBuffer c ps st.masterSeed).2).1
          = (getSeedBuffer c ps st.masterSeed).1 := getSeedBuffer_fst_idem c ps st.masterSeed
      subst hks
      dsimp only
      rw [hbuf, hdp]
      rfl
    · next e hdp =>
      simp only [Prod.mk.injEq] at heq
      exact Except.noConfusion heq.1
  · next e heq => exact Except.noConfusion h

/-- C2: `getNextPaymentIndex` returns the pre-increment value of the
merchant's payment counter, so successive calls for a merchant with no
prior mapping return exactly `0, 1, 2, …` — strictly increasing from 0
with no repetition. -/
theorem C2_payment_index_preincrement_seq :
    (∀ (s : DBState) (mid : String) (i k : Nat),
      s.merchants mid = some ⟨i, k⟩ → (getNextPaymentIndex s mid).1 = k)
    ∧ (∀ (s : DBState) (mid : String) (n : Nat),
      s.merchants mid = none → payIndexSeq s mid n = List.range n) := by
  constructor
  · intro s mid i k h
    rw [getNextPaymentIndex_mem s mid i k h]
  · intro s mid n h
    exact payIndexSeq_fresh s mid n h

/-- C3: across any trace of allocator operations from the empty store, two
distinct merchants never hold the same merchant index, and an index once
assigned never changes — the merchant-to-index map is injective, with
fresh indices coming from the global counter's fetch-and-increment. -/
theorem C3_merchant_index_injective :
    (∀ (ops : List WOp) (m1 m2 : String) (i1 i2 : Nat), m1 ≠ m2 →
      assignedIx (runOps dbInit ops) m1 = some i1 →
      assignedIx (runOps dbInit ops) m2 = some i2 → i1 ≠ i2)
    ∧ (∀ (ops more : List WOp) (m : String) (i : Nat),
      assignedIx (runOps dbInit ops) m = some i →
      assignedIx (runOps dbInit (ops ++ more)) m = some i) := by
  constructor
  · intro ops m1 m2 i1 i2 hne h1 h2
    exact (runOps_inv ops dbInit dbInit_inv).2 m1 m2 i1 i2 hne h1 h2
  · intro ops more m i h
    rw [runOps_append]
    exact runOps_assigned more _ m i h

/-- C9: once a merchant mapping exists, `getMerchantIndex` returns that
same index and leaves the store untouched — no new mapping, no counter
increment. -/
theorem C9_merchant_alloc_idempotent (s : DBState) (mid : String) (r : MerchRec)
    (h : s.merchants mid = some r) :
    getMerchantIndex s mid = (r.merchant_index, s) :=
  getMerchantIndex_mem s mid r h

-- ── Claims C6, C7, C8 ──────────────────────────────────────────────────────

/-- C6: seed expansion is a pure function of the master-seed string and
always yields 64 bytes: a 64-hex-character seed decodes to 32 bytes
duplicated, anything else is the SHA-512 digest of the seed string. -/
theorem C6_seed_expansion (c : Crypto) (h512 : SHA512Len c) (seed : String) :
    (seedBufOf c seed).length = 64
    ∧ (isHex64 seed = true →
        seedBufOf c seed = fromHexL seed.data ++ fromHexL seed.data)
    ∧ (isHex64 seed = false → seedBufOf c seed = c.sha512s seed) := by
  by_cases hh : isHex64 seed = true
  · have hlen : (fromHexL seed.data).length = 32 := by
      unfold isHex64 at hh
      rw [Bool.and_eq_true] at hh
      have h1 : seed.data.length = 64 := by simpa using hh.1
      rw [fromHexL_length seed.data hh.2, h1]
    refine ⟨?_, fun _ => ?_, fun hf => absurd hh (by simp [hf])⟩
    · unfold seedBufOf
      rw [if_pos hh, List.length_append, hlen]
    · unfold seedBufOf
      rw [if_pos hh]
  · have hf : isHex64 seed = false := by
      cases hb : isHex64 seed
      · rfl
      · exact absurd hb hh
    refine ⟨?_, fun ht => absurd ht hh, fun _ => ?_⟩
    · unfold seedBufOf
      rw [if_neg (by simp [hf])]
      exact h512 seed
    · unfold seedBufOf
      rw [if_neg (by simp [hf])]

/-- C7 counterexample: at `merchantIndex = -1` the derivation fails with
the invalid-path error (the regex rejects the minus sign), not with the
hardened-index range error the claim requires for every index outside
`[0, 2^31)`. -/
theorem C7_cex :
    (deriveKeypairFromPath toyCrypto "s" none (-1) 0).1
        ≠ Except.error DerivErr.rangeOut
    ∧ (deriveKeypairFromPath toyCrypto "s" none (-1) 0).1
        = Except.error DerivErr.invalidPath := by
  constructor
  · decide
  · decide

/-- C7 amended: for indices outside `[0, 2^31)` (within the
exactly-representable JS integer range, where decimal rendering is
faithful), `deriveKeypairFromPath` — and hence numeric-index
`regenerateKeypair` — fails without deriving a keypair: with the
invalid-path error when an index is negative, and with the
hardened-index range error when an index is `≥ 2^31`. -/
theorem C7_out_of_range_fails (c : Crypto) (ps : String) (cache : Option String)
    (mi pi : Int) (_hm53 : mi.natAbs < 9007199254740992)
    (_hp53 : pi.natAbs < 9007199254740992)
    (hout : ¬(0 ≤ mi ∧ mi < 2147483648 ∧ 0 ≤ pi ∧ pi < 2147483648)) :
    (deriveKeypairFromPath c ps cache mi pi).1
      = Except.error
          (if mi < 0 ∨ pi < 0 then DerivErr.invalidPath else DerivErr.rangeOut)
    ∧ (regenerateKeypairNum c ps cache mi pi).1
      = Except.error
          (if mi < 0 ∨ pi < 0 then DerivErr.invalidPath else DerivErr.rangeOut) := by
  have hmain : (deriveKeypairFromPath c ps cache mi pi).1
      = Except.error
          (if mi < 0 ∨ pi < 0 then DerivErr.invalidPath else DerivErr.rangeOut) := by
    by_cases hneg : mi < 0 ∨ pi < 0
    · rw [if_pos hneg]
      have hdp := derivePath_invalid c (renderPath mi pi)
        (String.mk (hexOf (getSeedBuffer c ps cache).1))
        (isValidPath_renderPath_neg mi pi hneg)
      unfold deriveKeypairFromPath
      dsimp only
      rw [hdp]
    · rw [if_neg hneg]
      have h0m : 0 ≤ mi := by omega
      have h0p : 0 ≤ pi := by omega
      have hdp : derivePath c (renderPath mi pi)
          (String.mk (hexOf (getSeedBuffer c ps cache).1))
          = Except.error DerivErr.rangeOut := by
        rw [derivePath_render_nonneg c mi pi h0m h0p]
        rw [foldCKD_cons, ckdPriv_ok c _ 44 (by omega)]
        simp only [Except.bind]
        rw [foldCKD_cons, ckdPriv_ok c _ 148 (by omega)]
        simp only [Except.bind]
        rw [foldCKD_cons]
        by_cases hm31 : 2147483648 ≤ mi.natAbs
        · rw [ckdPriv_big c _ mi.natAbs hm31]
          simp [Except.bind]
        · have hp31 : 2147483648 ≤ pi.natAbs := by omega
          rw [ckdPriv_ok c _ mi.natAbs (by omega)]
          simp only [Except.bind]
          rw [foldCKD_cons, ckdPriv_big c _ pi.natAbs hp31]
          simp [Except.bind]
      unfold deriveKeypairFromPath
      dsimp only
      rw [hdp]
  refine ⟨hmain, ?_⟩
  unfold regenerateKeypairNum
  dsimp only
  rw [hmain]

/-- C8 counterexample: the path `m/0'` does not match the spec's shape
`m/44'/148'/N'/M'`, yet `regenerateKeypairFromPath` accepts it and
derives a keypair — the implementation only checks the generic
`m(/[0-9]+')+` syntax of the ed25519-hd-key library. -/
theorem C8_cex :
    specPathForm (String.mk ['m', '/', '0', hq]) = false
    ∧ isOkE (regenerateKeypairFromPath toyCrypto "s" none
        (String.mk ['m', '/', '0', hq])).1 = true := by
  constructor
  · decide
  · decide

/-- C8 amended: `regenerateKeypairFromPath` fails with the invalid-path
error exactly on inputs rejected by the library's generic syntax
`m(/[0-9]+')+` — a strictly weaker validation than the spec's
`m/44'/148'/N'/M'` shape. -/
theorem C8_regen_invalid_iff (c : Crypto) (ps : String) (cache : Option String)
    (path : String) :
    (regenerateKeypairFromPath c ps cache path).1
        = Except.error DerivErr.invalidPath
      ↔ isValidPath path = false := by
  unfold regenerateKeypairFromPath
  dsimp only
  cases hdp : derivePath c path (String.mk (hexOf (getSeedBuffer c ps cache).1)) with
  | ok kc =>
    dsimp only
    constructor
    · intro hcontra
      exact absurd hcontra (by simp)
    · intro hval
      have hinv := derivePath_invalid c path
        (String.mk (hexOf (getSeedBuffer c ps cache).1)) hval
      rw [hinv] at hdp
      exact Except.noConfusion hdp
  | error e =>
    dsimp only
    constructor
    · intro h
      have he : e = DerivErr.invalidPath := Except.error.inj h
      rw [he] at hdp
      exact (derivePath_invalidPath_iff c path _).mp hdp
    · intro hval
      have hinv := derivePath_invalid c path
        (String.mk (hexOf (getSeedBuffer c ps cache).1)) hval
      rw [hinv] at hdp
      have he := Except.error.inj hdp
      rw [← he]

-- ── Codec lemmas ───────────────────────────────────────────────────────────

theorem stringMk_data (s : String) : String.mk s.data = s := rfl

theorem isDig_toNat_lt {ch : Char} (h : isDig ch = true) : ch.toNat < 256 := by
  unfold isDig at h
  rw [Bool.and_eq_true, decide_eq_true_eq, decide_eq_true_eq] at h
  omega

theorem intChars_all_lt (m : Int) :
    (intChars m).all (fun ch => decide (ch.toNat < 256)) = true := by
  have hdig : (natDigits m.natAbs).all (fun ch => decide (ch.toNat < 256)) = true := by
    rw [List.all_eq_true]
    intro ch hch
    have := List.all_eq_true.mp (natDigits_all_isDig m.natAbs) ch hch
    simp only [decide_eq_true_eq]
    exact isDig_toNat_lt this
  unfold intChars
  split
  · rw [List.all_cons, hdig]
    decide
  · exact hdig

theorem jsonStr_latin1 (m p : Int) : latin1 (jsonStr m p) = true := by
  unfold jsonStr latin1
  show (jsonKeyM ++ intChars m ++ jsonKeyP ++ intChars p ++ [braceClose]).all
    (fun ch => decide (ch.toNat < 256)) = true
  simp only [List.all_append, Bool.and_eq_true]
  refine ⟨⟨⟨⟨by decide, intChars_all_lt m⟩, by decide⟩, intChars_all_lt p⟩, by decide⟩

theorem localBlob_split (c : Crypto) (cache : Option String) (iv : List Nat)
    (pt : String) (hB : GCMBytes c) (hK : SHA256Bytes c)
    (hiv : iv.all (· < 256) = true) (hpt : latin1 pt = true) :
    splitOnChar ':' (localEncrypt c cache iv pt).data
      = [hexOf iv, hexOf (c.gcmEnc (localKey c cache) iv pt).2,
          hexOf (c.gcmEnc (localKey c cache) iv pt).1] := by
  obtain ⟨hct, htag⟩ := hB (localKey c cache) iv pt (hK _) hiv hpt
  unfold localEncrypt
  dsimp only
  show splitOnChar ':' (hexOf iv ++ ':' :: (hexOf (c.gcmEnc (localKey c cache) iv pt).2
      ++ ':' :: hexOf (c.gcmEnc (localKey c cache) iv pt).1)) = _
  rw [splitOnChar_append ':' (hexOf iv) _
    (fun ch hch => (hexOf_mem_ne iv hiv hch).1)]
  rw [splitOnChar_append ':' (hexOf (c.gcmEnc (localKey c cache) iv pt).2) _
    (fun ch hch => (hexOf_mem_ne _ htag hch).1)]
  rw [splitOnChar_no_sep ':' (hexOf (c.gcmEnc (localKey c cache) iv pt).1)
    (fun ch hch => (hexOf_mem_ne _ hct hch).1)]

theorem localDecrypt_enc (c : Crypto) (cache1 cache2 : Option String)
    (iv : List Nat) (pt : String) (hB : GCMBytes c) (hK : SHA256Bytes c)
    (hiv : iv.all (· < 256) = true) (hpt : latin1 pt = true) :
    localDecrypt c cache2 (localEncrypt c cache1 iv pt)
      = match c.gcmDec (localKey c cache2) iv
          (c.gcmEnc (localKey c cache1) iv pt).2
          (c.gcmEnc (localKey c cache1) iv pt).1 with
        | some q => Except.ok q
        | none => Except.error KeyDataErr.decryptionFailed := by
  obtain ⟨hct, htag⟩ := hB (localKey c cache1) iv pt (hK _) hiv hpt
  unfold localDecrypt
  rw [localBlob_split c cache1 iv pt hB hK hiv hpt]
  dsimp only
  rw [fromHexL_hexOf iv hiv, fromHexL_hexOf _ htag, fromHexL_hexOf _ hct]

theorem awsBlob_split (c : Crypto) (wrap : List Nat → String) (dk iv : List Nat)
    (data : String) (hB : GCMBytes c) (hdk : dk.all (· < 256) = true)
    (hiv : iv.all (· < 256) = true) (hpt : latin1 data = true)
    (hbar : ∀ ch ∈ (wrap dk).data, ch ≠ '|') :
    splitOnChar '|' (awsEncrypt c wrap dk iv data).data
      = [(wrap dk).data, hexOf iv, hexOf (c.gcmEnc dk iv data).2,
          hexOf (c.gcmEnc dk iv data).1] := by
  obtain ⟨hct, htag⟩ := hB dk iv data hdk hiv hpt
  unfold awsEncrypt
  dsimp only
  show splitOnChar '|' ((wrap dk).data ++ '|' :: (hexOf iv
      ++ '|' :: (hexOf (c.gcmEnc dk iv data).2
      ++ '|' :: hexOf (c.gcmEnc dk iv data).1))) = _
  rw [splitOnChar_append '|' ((wrap dk).data) _ hbar]
  rw [splitOnChar_append '|' (hexOf iv) _
    (fun ch hch => (hexOf_mem_ne iv hiv hch).2)]
  rw [splitOnChar_append '|' (hexOf (c.gcmEnc dk iv data).2) _
    (fun ch hch => (hexOf_mem_ne _ htag hch).2)]
  rw [splitOnChar_no_sep '|' (hexOf (c.gcmEnc dk iv data).1)
    (fun ch hch => (hexOf_mem_ne _ hct hch).2)]

-- ── Claims C4, C5, C10 ─────────────────────────────────────────────────────

/-- C4: the Index Codec round-trips — for non-negative indices below
`2^31`, `decryptKeyData (encryptKeyData m p)` returns exactly `(m, p)`,
both in the local AES-256-GCM fallback configuration and in the
provider (AWS KMS envelope) configuration — given functional soundness
of the cipher, byte-valued digests/outputs, a byte-valued IV, and a
key-wrapping that unwraps to the wrapped key with no `|` in its text. -/
theorem C4_codec_roundtrip (c : Crypto) (hC : GCMCorrect c) (hB : GCMBytes c)
    (hK : SHA256Bytes c) (cache : Option String) (iv : List Nat)
    (hiv : iv.all (· < 256) = true) (wrap : List Nat → String)
    (unwrap : String → Option (List Nat)) (dk : List Nat)
    (hdk : dk.all (· < 256) = true) (hwrap : unwrap (wrap dk) = some dk)
    (hbar : ∀ ch ∈ (wrap dk).data, ch ≠ '|') (m p : Int)
    (_hm0 : 0 ≤ m) (_hm1 : m < 2147483648) (_hp0 : 0 ≤ p) (_hp1 : p < 2147483648) :
    decryptKeyData c cache EncBackend.localOnly
        (encryptKeyData c cache EncBackend.localOnly iv m p) = Except.ok (m, p)
    ∧ decryptKeyData c cache (EncBackend.provider wrap unwrap dk)
        (encryptKeyData c cache (EncBackend.provider wrap unwrap dk) iv m p)
        = Except.ok (m, p) := by
  have hpt := jsonStr_latin1 m p
  constructor
  · unfold encryptKeyData decryptKeyData
    dsimp only
    rw [localDecrypt_enc c cache cache iv (jsonStr m p) hB hK hiv hpt]
    rw [hC (localKey c cache) iv (jsonStr m p) hpt]
    dsimp only
    rw [jsonParsePair_jsonStr]
  · unfold encryptKeyData decryptKeyData
    dsimp only
    unfold awsDecrypt
    rw [awsBlob_split c wrap dk iv (jsonStr m p) hB hdk hiv hpt hbar]
    dsimp only
    rw [stringMk_data, hwrap]
    dsimp only
    obtain ⟨hct, htag⟩ := hB dk iv (jsonStr m p) hdk hiv hpt
    rw [fromHexL_hexOf iv hiv, fromHexL_hexOf _ htag, fromHexL_hexOf _ hct]
    rw [hC dk iv (jsonStr m p) hpt]
    dsimp only
    rw [jsonParsePair_jsonStr]

/-- C5: in the local configuration, `decryptKeyData` fails with the
malformed-blob error whenever the blob does not have exactly three
`:`-fields, fails with the decryption error whenever tag verification
fails, and — under the authenticated-cipher idealization — can only
return a pair of which the blob's fields are a genuine encryption of its
canonical serialization: it never returns a wrong-but-valid-looking pair. -/
theorem C5_decrypt_error_handling (c : Crypto) (cache : Option String)
    (blob : String) (hauth : GCMAuth c) :
    ((splitOnChar ':' blob.data).length ≠ 3 →
      decryptKeyData c cache EncBackend.localOnly blob
        = Except.error KeyDataErr.malformedBlob)
    ∧ (∀ ivH tagH ctH, splitOnChar ':' blob.data = [ivH, tagH, ctH] →
        c.gcmDec (localKey c cache) (fromHexL ivH) (fromHexL tagH) (fromHexL ctH)
          = none →
        decryptKeyData c cache EncBackend.localOnly blob
          = Except.error KeyDataErr.decryptionFailed)
    ∧ (∀ m p ivH tagH ctH payload,
        splitOnChar ':' blob.data = [ivH, tagH, ctH] →
        c.gcmDec (localKey c cache) (fromHexL ivH) (fromHexL tagH) (fromHexL ctH)
          = some payload →
        decryptKeyData c cache EncBackend.localOnly blob = Except.ok (m, p) →
        c.gcmEnc (localKey c cache) (fromHexL ivH) payload
            = (fromHexL ctH, fromHexL tagH)
          ∧ jsonParsePair payload = some (m, p)) := by
  refine ⟨?_, ?_, ?_⟩
  · intro hlen
    unfold decryptKeyData
    dsimp only
    unfold localDecrypt
    cases hsp : splitOnChar ':' blob.data with
    | nil => rfl
    | cons a t =>
      cases t with
      | nil => rfl
      | cons b t2 =>
        cases t2 with
        | nil => rfl
        | cons c3 t3 =>
          cases t3 with
          | nil =>
            rw [hsp] at hlen
            exact absurd rfl hlen
          | cons d t4 => rfl
  · intro ivH tagH ctH hsp hdec
    unfold decryptKeyData
    dsimp only
    unfold localDecrypt
    rw [hsp]
    dsimp only
    rw [hdec]
  · intro m p ivH tagH ctH payload hsp hdec hok
    refine ⟨hauth _ _ _ _ _ hdec, ?_⟩
    unfold decryptKeyData at hok
    dsimp only at hok
    unfold localDecrypt at hok
    rw [hsp] at hok
    dsimp only at hok
    rw [hdec] at hok
    dsimp only at hok
    cases hjp : jsonParsePair payload with
    | none =>
      rw [hjp] at hok
      exact Except.noConfusion hok
    | some mp =>
      rw [hjp] at hok
      have hmp := Except.ok.inj hok
      rw [hmp]

/-- C10: with no provider encrypt/decrypt capability and no cached master
seed, the local codec key is derived from the constant `"default-hd-key"`;
after a seed fetch it is derived from the seed. Consequently — under the
ideal-cipher hypotheses and distinct derived keys — a blob encrypted
before the first seed fetch fails to decrypt (with the decryption error)
after the fetch, and vice versa. -/
theorem C10_default_key_cross_fails (c : Crypto) (hauth : GCMAuth c)
    (hinj : GCMEncInj c) (hB : GCMBytes c) (hK : SHA256Bytes c)
    (seed : String) (hseed : seed.isEmpty = false)
    (hkeys : c.sha256s ("default-hd-key" ++ ":hd-key-data")
      ≠ c.sha256s (seed ++ ":hd-key-data"))
    (iv iv2 : List Nat) (hiv : iv.all (· < 256) = true)
    (hiv2 : iv2.all (· < 256) = true) (m p : Int) :
    localKey c none = c.sha256s ("default-hd-key" ++ ":hd-key-data")
    ∧ localKey c (some seed) = c.sha256s (seed ++ ":hd-key-data")
    ∧ decryptKeyData c (some seed) EncBackend.localOnly
        (encryptKeyData c none EncBackend.localOnly iv m p)
        = Except.error KeyDataErr.decryptionFailed
    ∧ decryptKeyData c none EncBackend.localOnly
        (encryptKeyData c (some seed) EncBackend.localOnly iv2 m p)
        = Except.error KeyDataErr.decryptionFailed := by
  have hk1 : localKey c none = c.sha256s ("default-hd-key" ++ ":hd-key-data") := rfl
  have hk2 : localKey c (some seed) = c.sha256s (seed ++ ":hd-key-data") := by
    unfold localKey jsTruthySeed
    dsimp only
    rw [hseed]
    simp
  have hkne : localKey c none ≠ localKey c (some seed) := by
    rw [hk1, hk2]
    exact hkeys
  have hpt := jsonStr_latin1 m p
  have cross : ∀ (ca cb : Option String) (ivx : List Nat),
      ivx.all (· < 256) = true → localKey c ca ≠ localKey c cb →
      decryptKeyData c cb EncBackend.localOnly
        (encryptKeyData c ca EncBackend.localOnly ivx m p)
        = Except.error KeyDataErr.decryptionFailed := by
    intro ca cb ivx hivx hne
    unfold encryptKeyData decryptKeyData
    dsimp only
    rw [localDecrypt_enc c ca cb ivx (jsonStr m p) hB hK hivx hpt]
    have hnone : c.gcmDec (localKey c cb) ivx
        (c.gcmEnc (localKey c ca) ivx (jsonStr m p)).2
        (c.gcmEnc (localKey c ca) ivx (jsonStr m p)).1 = none := by
      cases hd : c.gcmDec (localKey c cb) ivx
          (c.gcmEnc (localKey c ca) ivx (jsonStr m p)).2
          (c.gcmEnc (localKey c ca) ivx (jsonStr m p)).1 with
      | none => rfl
      | some payload =>
        have henc2 := hauth _ _ _ _ _ hd
        have henc1 : c.gcmEnc (localKey c ca) ivx (jsonStr m p)
            = ((c.gcmEnc (localKey c ca) ivx (jsonStr m p)).1,
                (c.gcmEnc (localKey c ca) ivx (jsonStr m p)).2) := rfl
        have hee := henc2.trans henc1.symm
        have := hinj _ _ _ _ _ hee
        exact absurd this.1.symm hne
    rw [hnone]
  exact ⟨hk1, hk2, cross none (some seed) iv hiv hkne,
    cross (some seed) none iv2 hiv2 hkne.symm⟩

-- ── Witnesses ──────────────────────────────────────────────────────────────

theorem C1_witness :
    derivePaymentAddress toyCrypto ("seed0") svc0 ("A") ("p")
        = Except.ok (c1res.1, c1res.2)
    ∧ (regenerateKeypairFromPath toyCrypto ("seed0") c1res.2.masterSeed
        c1res.1.derivationPath).1.map (fun kp => kp.1)
        = Except.ok c1res.1.publicKey := by
  refine ⟨rfl, ?_⟩
  exact C1_derive_then_regen_same_pubkey toyCrypto ("seed0") svc0 ("A") ("p")
    c1res.1 c1res.2 rfl

theorem C2_witness :
    (getNextPaymentIndex db1 ("A")).1 = 5
    ∧ payIndexSeq dbInit ("B") 3 = List.range 3 := by
  refine ⟨?_, ?_⟩
  · exact C2_payment_index_preincrement_seq.1 db1 ("A") 0 5 (by decide)
  · exact C2_payment_index_preincrement_seq.2 dbInit ("B") 3 (by decide)

theorem C3_witness :
    assignedIx (runOps dbInit [WOp.merch ("A"), WOp.merch ("B")]) ("A") = some 0
    ∧ assignedIx (runOps dbInit [WOp.merch ("A"), WOp.merch ("B")]) ("B") = some 1
    ∧ (0 : Nat) ≠ 1
    ∧ assignedIx (runOps dbInit ([WOp.merch ("A")] ++ [WOp.merch ("B")])) ("A")
        = some 0 := by
  refine ⟨by decide, by decide, ?_, ?_⟩
  · exact C3_merchant_index_injective.1 [WOp.merch ("A"), WOp.merch ("B")]
      ("A") ("B") 0 1 (by decide) (by decide) (by decide)
  · exact C3_merchant_index_injective.2 [WOp.merch ("A")] [WOp.merch ("B")]
      ("A") 0 (by decide)

theorem C4_witness :
    decryptKeyData toyCrypto none EncBackend.localOnly
        (encryptKeyData toyCrypto none EncBackend.localOnly [7] 3 7)
        = Except.ok (3, 7)
    ∧ decryptKeyData toyCrypto none (EncBackend.provider w4 u4 [1, 2])
        (encryptKeyData toyCrypto none (EncBackend.provider w4 u4 [1, 2]) [7] 3 7)
        = Except.ok (3, 7) :=
  C4_codec_roundtrip toyCrypto toyGCMCorrect toyGCMBytes toySHA256Bytes none [7]
    (by decide) w4 u4 [1, 2] (by decide) (by decide) (by decide) 3 7
    (by decide) (by decide) (by decide) (by decide)

theorem C5_witness :
    decryptKeyData toyCrypto none EncBackend.localOnly ("nocolons")
        = Except.error KeyDataErr.malformedBlob
    ∧ decryptKeyData toyCrypto none EncBackend.localOnly c5blobBad
        = Except.error KeyDataErr.decryptionFailed
    ∧ (toyCrypto.gcmEnc (localKey toyCrypto none) (fromHexL (hexOf c5iv))
          (jsonStr 2 3) = (fromHexL (hexOf c5ct), fromHexL (hexOf c5tag))
        ∧ jsonParsePair (jsonStr 2 3) = some (2, 3)) := by
  refine ⟨?_, ?_, ?_⟩
  · exact (C5_decrypt_error_handling toyCrypto none ("nocolons") toyGCMAuth).1
      (by decide)
  · exact (C5_decrypt_error_handling toyCrypto none c5blobBad toyGCMAuth).2.1
      (hexOf [1]) (hexOf [9, 9]) (hexOf [1, 2]) (by decide) (by decide)
  · exact (C5_decrypt_error_handling toyCrypto none c5blobGood toyGCMAuth).2.2
      2 3 (hexOf c5iv) (hexOf c5tag) (hexOf c5ct) (jsonStr 2 3)
      (by decide) (by decide) (by decide)

theorem C6_witness :
    ((seedBufOf toyCrypto ("abc")).length = 64
      ∧ (isHex64 ("abc") = true →
          seedBufOf toyCrypto ("abc")
            = fromHexL ("abc" : String).data ++ fromHexL ("abc" : String).data)
      ∧ (isHex64 ("abc") = false →
          seedBufOf toyCrypto ("abc") = toyCrypto.sha512s ("abc")))
    ∧ ((seedBufOf toyCrypto hex64zeros).length = 64
      ∧ (isHex64 hex64zeros = true →
          seedBufOf toyCrypto hex64zeros
            = fromHexL hex64zeros.data ++ fromHexL hex64zeros.data)
      ∧ (isHex64 hex64zeros = false →
          seedBufOf toyCrypto hex64zeros = toyCrypto.sha512s hex64zeros)) :=
  ⟨C6_seed_expansion toyCrypto toySHA512Len ("abc"),
    C6_seed_expansion toyCrypto toySHA512Len hex64zeros⟩

theorem C7_witness :
    (deriveKeypairFromPath toyCrypto ("s") none 2147483648 0).1
      = Except.error (if (2147483648 : Int) < 0 ∨ (0 : Int) < 0
          then DerivErr.invalidPath else DerivErr.rangeOut)
    ∧ (regenerateKeypairNum toyCrypto ("s") none 2147483648 0).1
      = Except.error (if (2147483648 : Int) < 0 ∨ (0 : Int) < 0
          then DerivErr.invalidPath else DerivErr.rangeOut) :=
  C7_out_of_range_fails toyCrypto ("s") none 2147483648 0
    (by decide) (by decide) (by decide)

theorem C8_witness :
    (regenerateKeypairFromPath toyCrypto ("s") none ("zz")).1
      = Except.error DerivErr.invalidPath :=
  (C8_regen_invalid_iff toyCrypto ("s") none ("zz")).mpr (by decide)

theorem C9_witness : getMerchantIndex db1 ("A") = (0, db1) :=
  C9_merchant_alloc_idempotent db1 ("A") ⟨0, 5⟩ (by decide)

theorem C10_witness :
    localKey toyCrypto none
        = toyCrypto.sha256s ("default-hd-key" ++ ":hd-key-data")
    ∧ localKey toyCrypto (some ("abc"))
        = toyCrypto.sha256s ("abc" ++ ":hd-key-data")
    ∧ decryptKeyData toyCrypto (some ("abc")) EncBackend.localOnly
        (encryptKeyData toyCrypto none EncBackend.localOnly [4] 1 2)
        = Except.error KeyDataErr.decryptionFailed
    ∧ decryptKeyData toyCrypto none EncBackend.localOnly
        (encryptKeyData toyCrypto (some ("abc")) EncBackend.localOnly [5] 1 2)
        = Except.error KeyDataErr.decryptionFailed :=
  C10_default_key_cross_fails toyCrypto toyGCMAuth toyGCMEncInj toyGCMBytes
    toySHA256Bytes ("abc") (by decide) (by decide) [4] [5]
    (by decide) (by decide) 1 2

end Fluxa
